import Mathlib

/-!
Verification of the hardware-simulation core of the `vscode-tinygo` extension
(`play/devices.js`, `play/play.js` and the wires/pins/buses file).

The JavaScript sources are shallowly embedded:

* A `Schematic` captures the fixed environment of the pin graph: the set of
  pins (as natural-number identifiers), the on-board connection groups
  (`Pin.connectedOnBoard` is a shared `Set` object in the source; two pins are
  in the same group exactly when they hold the same set object, which we model
  by a group identifier `groupOf`), the list of completed wires (a wire is in
  `from.wires` and `to.wires` for exactly its two endpoints, so the per-pin
  wire sets are derived as `pinWires`), the owning device of every pin
  (`pin.device`), and every pin's current mode and level (`pin.mode`,
  `pin.high`; `output p = true` models `mode == 'output'`).
* JavaScript `Set` insertion is modelled by appending an element to a list
  unless it is already present, which reproduces both the membership
  semantics and the insertion-order iteration of `Set`.
* `Pin.connected` caches its result keyed by `wireConfigurationVersion`; the
  cache only ever replays the value computed by the traversal below, so the
  model recomputes it.
-/

structure Schematic where
  pins : List Nat
  groupOf : Nat → Nat
  wires : List (Nat × Nat)
  deviceOf : Nat → Nat
  output : Nat → Bool
  high : Nat → Bool

/-- Wires incident to pin `x`: the source keeps this as the mutable set
`pin.wires`, whose contents are exactly the completed wires having `x` as an
endpoint. -/
def pinWires (S : Schematic) (x : Nat) : List (Nat × Nat) :=
  S.wires.filter (fun w => w.1 == x || w.2 == x)

/-- Pins on the same on-board connection group as `p`, i.e. the contents of
the shared set object `p.connectedOnBoard` (which always contains `p`
itself). -/
def connectedOnBoard (S : Schematic) (p : Nat) : List Nat :=
  S.pins.filter (fun q => S.groupOf q == S.groupOf p)

/-- JavaScript `Set.add` on the `connected` set: append unless present. -/
def addPin (conn : List Nat) (q : Nat) : List Nat :=
  if q ∈ conn then conn else conn ++ [q]

/-- Add a whole list of pins to the `connected` set, in order. -/
def addPins (conn : List Nat) (qs : List Nat) : List Nat :=
  qs.foldl addPin conn

/-- The guarded insertion `if (!checkedWires.has(pinWire)) uncheckedWires.add(pinWire)`
performed by `Pin.connected` for each wire of a visited pin. -/
def addWire (unchecked checked : List (Nat × Nat)) (w : Nat × Nat) : List (Nat × Nat) :=
  if w ∈ checked ∨ w ∈ unchecked then unchecked else unchecked ++ [w]

/-- Enqueue every wire of `ws` that has not been checked yet. -/
def addWires (unchecked checked : List (Nat × Nat)) (ws : List (Nat × Nat)) : List (Nat × Nat) :=
  ws.foldl (fun acc w => addWire acc checked w) unchecked

/-- Number of wires of the schematic not yet marked as checked; the
termination measure of the traversal below. -/
def remainingWires (S : Schematic) (checked : List (Nat × Nat)) : Nat :=
  (S.wires.filter (fun x => decide (x ∉ checked))).length

theorem length_filter_mono {α : Type} (l : List α) (p q : α → Bool)
    (h : ∀ x, p x = true → q x = true) :
    (l.filter p).length ≤ (l.filter q).length := by
  induction l with
  | nil => simp
  | cons a t ih =>
    by_cases hpa : p a = true
    · simp only [List.filter, hpa, h a hpa, List.length_cons]
      omega
    · simp only [Bool.not_eq_true] at hpa
      simp only [List.filter, hpa]
      cases hqa : q a
      · exact ih
      · simp only [List.length_cons]; omega

theorem length_filter_notmem_lt (l checked : List (Nat × Nat)) (w : Nat × Nat)
    (hmem : w ∈ l) (hnc : w ∉ checked) :
    (l.filter (fun x => decide (x ∉ checked ++ [w]))).length <
      (l.filter (fun x => decide (x ∉ checked))).length := by
  induction l with
  | nil => simp at hmem
  | cons a t ih =>
    by_cases haw : a = w
    · subst haw
      have h1 : (decide (a ∉ checked ++ [a])) = false := by simp
      have h2 : (decide (a ∉ checked)) = true := by simpa using hnc
      simp only [List.filter, h1, h2, List.length_cons]
      have := length_filter_mono t (fun x => decide (x ∉ checked ++ [a]))
        (fun x => decide (x ∉ checked)) (by intro x hx; simp at hx ⊢; exact hx.1)
      omega
    · have hmt : w ∈ t := by
        rcases List.mem_cons.mp hmem with h | h
        · exact absurd h.symm haw
        · exact h
      have := ih hmt
      by_cases hac : a ∈ checked ++ [w]
      · have h1 : (decide (a ∉ checked ++ [w])) = false := by simp [hac]
        have hac' : a ∈ checked := by
          rcases List.mem_append.mp hac with h | h
          · exact h
          · exact absurd (List.mem_singleton.mp h) haw
        have h2 : (decide (a ∉ checked)) = false := by simp [hac']
        simp only [List.filter, h1, h2]
        omega
      · have h1 : (decide (a ∉ checked ++ [w])) = true := by simp at hac ⊢; exact hac
        have hac' : a ∉ checked := fun hc => hac (List.mem_append.mpr (Or.inl hc))
        have h2 : (decide (a ∉ checked)) = true := by simp [hac']
        simp only [List.filter, h1, h2, List.length_cons]
        omega

theorem remainingWires_lt (S : Schematic) (checked : List (Nat × Nat)) (w : Nat × Nat)
    (hmem : w ∈ S.wires) (hnc : w ∉ checked) :
    remainingWires S (checked ++ [w]) < remainingWires S checked := by
  unfold remainingWires
  exact length_filter_notmem_lt S.wires checked w hmem hnc

/-- Worklist loop of the `Pin.connected` getter.  One iteration picks a wire
from the unchecked set (the source picks an arbitrary element of the
JavaScript `Set`; we take the head — the computed set is shown below to be
order-independent through its membership characterisation), marks it
checked, adds the on-board groups of both endpoints to the connected set and
enqueues the unchecked wires of both endpoints.  The guard
`w ∈ S.wires ∧ w ∉ checked` always holds on wires that were enqueued (they
come from per-pin wire sets, filtered against `checked`); it is made explicit
here so that the recursion is total on arbitrary arguments. -/
def connectedLoop (S : Schematic) (unchecked checked : List (Nat × Nat)) (conn : List Nat) :
    List Nat :=
  match unchecked with
  | [] => conn
  | w :: rest =>
    if h : w ∈ S.wires ∧ w ∉ checked then
      connectedLoop S
        (addWires (addWires rest (checked ++ [w]) (pinWires S w.1)) (checked ++ [w])
          (pinWires S w.2))
        (checked ++ [w])
        (addPins (addPins conn (connectedOnBoard S w.1)) (connectedOnBoard S w.2))
    else
      connectedLoop S rest checked conn
termination_by (remainingWires S checked, unchecked.length)
decreasing_by
  · exact Prod.Lex.left _ _ (remainingWires_lt S checked w h.1 h.2)
  · exact Prod.Lex.right _ (Nat.lt_succ_self _)

theorem connectedLoop_nil (S : Schematic) (checked : List (Nat × Nat)) (conn : List Nat) :
    connectedLoop S [] checked conn = conn := by
  rw [connectedLoop]

theorem connectedLoop_cons (S : Schematic) (w : Nat × Nat) (rest checked : List (Nat × Nat))
    (conn : List Nat) :
    connectedLoop S (w :: rest) checked conn =
      if w ∈ S.wires ∧ w ∉ checked then
        connectedLoop S
          (addWires (addWires rest (checked ++ [w]) (pinWires S w.1)) (checked ++ [w])
            (pinWires S w.2))
          (checked ++ [w])
          (addPins (addPins conn (connectedOnBoard S w.1)) (connectedOnBoard S w.2))
      else
        connectedLoop S rest checked conn := by
  rw [connectedLoop]
  split <;> rfl

/-- Initialisation of the `connected` getter: walk the pin's on-board group,
adding each group member to the connected set and enqueueing its wires. -/
def connectedInit (S : Schematic) (p : Nat) : List Nat × List (Nat × Nat) :=
  (connectedOnBoard S p).foldl
    (fun (acc : List Nat × List (Nat × Nat)) x =>
      (addPin acc.1 x, addWires acc.2 [] (pinWires S x))) ([], [])

/-- The `connected` getter of `Pin`: start from the pin's on-board group,
then run the worklist loop with an empty checked set. -/
def Pin.connected (S : Schematic) (p : Nat) : List Nat :=
  connectedLoop S (connectedInit S p).2 [] (connectedInit S p).1

theorem mem_pinWires (S : Schematic) (x : Nat) (w : Nat × Nat) :
    w ∈ pinWires S x ↔ w ∈ S.wires ∧ (w.1 = x ∨ w.2 = x) := by
  unfold pinWires
  rw [List.mem_filter]
  simp

theorem mem_connectedOnBoard (S : Schematic) (p q : Nat) :
    q ∈ connectedOnBoard S p ↔ q ∈ S.pins ∧ S.groupOf q = S.groupOf p := by
  unfold connectedOnBoard
  rw [List.mem_filter]
  simp

theorem connectedOnBoard_swap (S : Schematic) (p q : Nat) (hp : p ∈ S.pins)
    (hq : q ∈ connectedOnBoard S p) : p ∈ connectedOnBoard S q := by
  rw [mem_connectedOnBoard] at hq ⊢
  exact ⟨hp, hq.2.symm⟩

theorem self_mem_connectedOnBoard (S : Schematic) (p : Nat) (hp : p ∈ S.pins) :
    p ∈ connectedOnBoard S p := by
  rw [mem_connectedOnBoard]
  exact ⟨hp, rfl⟩

theorem mem_addPin (conn : List Nat) (x q : Nat) :
    q ∈ addPin conn x ↔ q ∈ conn ∨ q = x := by
  unfold addPin
  split
  · constructor
    · exact Or.inl
    · rintro (h | rfl)
      · exact h
      · assumption
  · simp

theorem mem_addPins (conn : List Nat) (xs : List Nat) (q : Nat) :
    q ∈ addPins conn xs ↔ q ∈ conn ∨ q ∈ xs := by
  induction xs generalizing conn with
  | nil => simp [addPins]
  | cons a t ih =>
    show q ∈ addPins (addPin conn a) t ↔ _
    rw [ih, mem_addPin]
    simp only [List.mem_cons]
    tauto

theorem nodup_addPin (conn : List Nat) (x : Nat) (h : conn.Nodup) : (addPin conn x).Nodup := by
  unfold addPin
  split
  · exact h
  · simpa [List.nodup_append] using ⟨h, by assumption⟩

theorem mem_addWire (unchecked checked : List (Nat × Nat)) (w v : Nat × Nat) :
    v ∈ addWire unchecked checked w ↔ v ∈ unchecked ∨ (v = w ∧ w ∉ checked) := by
  unfold addWire
  split
  · rename_i hw
    constructor
    · exact Or.inl
    · rintro (h | ⟨rfl, hnc⟩)
      · exact h
      · rcases hw with h | h
        · exact absurd h hnc
        · exact h
  · rename_i hw
    rw [not_or] at hw
    simp only [List.mem_append, List.mem_singleton]
    constructor
    · rintro (h | rfl)
      · exact Or.inl h
      · exact Or.inr ⟨rfl, hw.1⟩
    · rintro (h | ⟨rfl, _⟩)
      · exact Or.inl h
      · exact Or.inr rfl

theorem mem_addWires (unchecked checked ws : List (Nat × Nat)) (v : Nat × Nat) :
    v ∈ addWires unchecked checked ws ↔ v ∈ unchecked ∨ (v ∈ ws ∧ v ∉ checked) := by
  induction ws generalizing unchecked with
  | nil => simp [addWires]
  | cons a t ih =>
    show v ∈ addWires (addWire unchecked checked a) checked t ↔ _
    rw [ih, mem_addWire]
    simp only [List.mem_cons]
    constructor
    · rintro ((h | ⟨rfl, hnc⟩) | ⟨ht, hnc⟩)
      · exact Or.inl h
      · exact Or.inr ⟨Or.inl rfl, hnc⟩
      · exact Or.inr ⟨Or.inr ht, hnc⟩
    · rintro (h | ⟨(rfl | ht), hnc⟩)
      · exact Or.inl (Or.inl h)
      · exact Or.inl (Or.inr ⟨rfl, hnc⟩)
      · exact Or.inr ⟨ht, hnc⟩

/-- Wires discovered by the traversal started at pin `p`: first the wires of
`p`'s on-board group members, then, for every discovered wire, the wires
sharing an endpoint pin with it.  Note that the loop body only enqueues the
wires of the two endpoint pins themselves — not the wires of the other
on-board group members of those endpoints — which is why the traversal is
characterised by this relation rather than by full transitive reachability. -/
inductive WireReach (S : Schematic) (p : Nat) : Nat × Nat → Prop where
  | init (x : Nat) (w : Nat × Nat) (hx : x ∈ connectedOnBoard S p) (hw : w ∈ pinWires S x) :
      WireReach S p w
  | step (w v : Nat × Nat) (e : Nat) (hw : WireReach S p w) (he : e = w.1 ∨ e = w.2)
      (hv : v ∈ pinWires S e) : WireReach S p v

theorem WireReach.wire_mem {S : Schematic} {p : Nat} {w : Nat × Nat}
    (h : WireReach S p w) : w ∈ S.wires := by
  cases h with
  | init x w hx hw => exact ((mem_pinWires S x w).mp hw).1
  | step v w e hw he hv => exact ((mem_pinWires S e w).mp hv).1

/-- Membership in the value computed by `Pin.connected`: the pin's own
on-board group, plus the on-board groups of both endpoints of every
discovered wire. -/
def ReachedPin (S : Schematic) (p q : Nat) : Prop :=
  q ∈ connectedOnBoard S p ∨
    ∃ w, WireReach S p w ∧ (q ∈ connectedOnBoard S w.1 ∨ q ∈ connectedOnBoard S w.2)

theorem connectedLoop_sound (S : Schematic) (p : Nat) :
    ∀ unchecked checked conn,
      (∀ q ∈ conn, ReachedPin S p q) →
      (∀ w ∈ unchecked, WireReach S p w) →
      ∀ q ∈ connectedLoop S unchecked checked conn, ReachedPin S p q := by
  intro unchecked checked conn
  induction unchecked, checked, conn using connectedLoop.induct S with
  | case1 checked conn =>
    intro hconn _ q hq
    rw [connectedLoop_nil] at hq
    exact hconn q hq
  | case2 checked conn w rest h ih =>
    intro hconn hun q hq
    rw [connectedLoop_cons, if_pos h] at hq
    refine ih ?_ ?_ q hq
    · intro q' hq'
      rcases (mem_addPins _ _ _).mp hq' with hq' | hq'
      · rcases (mem_addPins _ _ _).mp hq' with hq' | hq'
        · exact hconn q' hq'
        · exact Or.inr ⟨w, hun w (List.mem_cons_self w rest), Or.inl hq'⟩
      · exact Or.inr ⟨w, hun w (List.mem_cons_self w rest), Or.inr hq'⟩
    · intro v hv
      rcases (mem_addWires _ _ _ _).mp hv with hv | ⟨hv, _⟩
      · rcases (mem_addWires _ _ _ _).mp hv with hv | ⟨hv, _⟩
        · exact hun v (List.mem_cons_of_mem w hv)
        · exact WireReach.step w v w.1 (hun w (List.mem_cons_self w rest)) (Or.inl rfl) hv
      · exact WireReach.step w v w.2 (hun w (List.mem_cons_self w rest)) (Or.inr rfl) hv
  | case3 checked conn w rest h ih =>
    intro hconn hun q hq
    rw [connectedLoop_cons, if_neg h] at hq
    exact ih hconn (fun v hv => hun v (List.mem_cons_of_mem w hv)) q hq

theorem connectedLoop_closed (S : Schematic) (p : Nat) :
    ∀ unchecked checked conn,
      (∀ x ∈ connectedOnBoard S p, x ∈ conn) →
      (∀ x ∈ connectedOnBoard S p, ∀ w ∈ pinWires S x, w ∈ checked ∨ w ∈ unchecked) →
      (∀ w ∈ checked, (∀ q ∈ connectedOnBoard S w.1, q ∈ conn) ∧
        (∀ q ∈ connectedOnBoard S w.2, q ∈ conn)) →
      (∀ w ∈ checked, ∀ e, (e = w.1 ∨ e = w.2) →
        ∀ v ∈ pinWires S e, v ∈ checked ∨ v ∈ unchecked) →
      ∀ q, ReachedPin S p q → q ∈ connectedLoop S unchecked checked conn := by
  intro unchecked checked conn
  induction unchecked, checked, conn using connectedLoop.induct S with
  | case1 checked conn =>
    intro ha hb hc hd q hq
    rw [connectedLoop_nil]
    have hWchecked : ∀ w, WireReach S p w → w ∈ checked := by
      intro w hw
      induction hw with
      | init x v hx hv =>
        rcases hb x hx v hv with h | h
        · exact h
        · exact absurd h (List.not_mem_nil v)
      | step v u e hv he hu ih =>
        rcases hd v ih e he u hu with h | h
        · exact h
        · exact absurd h (List.not_mem_nil u)
    rcases hq with hq | ⟨w, hwr, hgrp⟩
    · exact ha q hq
    · rcases hgrp with hgrp | hgrp
      · exact (hc w (hWchecked w hwr)).1 q hgrp
      · exact (hc w (hWchecked w hwr)).2 q hgrp
  | case2 checked conn w rest h ih =>
    intro ha hb hc hd q hq
    rw [connectedLoop_cons, if_pos h]
    have hpw : ∀ x, ∀ v ∈ pinWires S x, v ∈ S.wires := by
      intro x v hv
      exact ((mem_pinWires S x v).mp hv).1
    have hkeep : ∀ v, v ∈ checked ∨ v ∈ w :: rest →
        v ∈ checked ++ [w] ∨
          v ∈ addWires (addWires rest (checked ++ [w]) (pinWires S w.1)) (checked ++ [w])
            (pinWires S w.2) := by
      intro v hv
      rcases hv with hv | hv
      · exact Or.inl (List.mem_append.mpr (Or.inl hv))
      · rcases List.mem_cons.mp hv with rfl | hv
        · exact Or.inl (List.mem_append.mpr (Or.inr (List.mem_singleton.mpr rfl)))
        · exact Or.inr ((mem_addWires _ _ _ _).mpr
            (Or.inl ((mem_addWires _ _ _ _).mpr (Or.inl hv))))
    have hconnkeep : ∀ q', q' ∈ conn →
        q' ∈ addPins (addPins conn (connectedOnBoard S w.1)) (connectedOnBoard S w.2) := by
      intro q' hq'
      exact (mem_addPins _ _ _).mpr (Or.inl ((mem_addPins _ _ _).mpr (Or.inl hq')))
    refine ih ?_ ?_ ?_ ?_ q hq
    · intro x hx
      exact hconnkeep x (ha x hx)
    · intro x hx v hv
      exact hkeep v (hb x hx v hv)
    · intro v hv
      rcases List.mem_append.mp hv with hv | hv
      · exact ⟨fun q' hq' => hconnkeep q' ((hc v hv).1 q' hq'),
          fun q' hq' => hconnkeep q' ((hc v hv).2 q' hq')⟩
      · rcases List.mem_singleton.mp hv with rfl
        constructor
        · intro q' hq'
          exact (mem_addPins _ _ _).mpr (Or.inl ((mem_addPins _ _ _).mpr (Or.inr hq')))
        · intro q' hq'
          exact (mem_addPins _ _ _).mpr (Or.inr hq')
    · intro v hv e he u hu
      rcases List.mem_append.mp hv with hv | hv
      · exact hkeep u (hd v hv e he u hu)
      · rcases List.mem_singleton.mp hv with rfl
        by_cases huc : u ∈ checked ++ [v]
        · exact Or.inl huc
        · rcases he with rfl | rfl
          · exact Or.inr ((mem_addWires _ _ _ _).mpr
              (Or.inl ((mem_addWires _ _ _ _).mpr (Or.inr ⟨hu, huc⟩))))
          · exact Or.inr ((mem_addWires _ _ _ _).mpr (Or.inr ⟨hu, huc⟩))
  | case3 checked conn w rest h ih =>
    intro ha hb hc hd q hq
    rw [connectedLoop_cons, if_neg h]
    have hskip : ∀ v, v ∈ S.wires → v ∈ checked ∨ v ∈ w :: rest → v ∈ checked ∨ v ∈ rest := by
      intro v hvw hv
      rcases hv with hv | hv
      · exact Or.inl hv
      · rcases List.mem_cons.mp hv with rfl | hv
        · rw [not_and_or, not_not] at h
          rcases h with h | h
          · exact absurd hvw h
          · exact Or.inl h
        · exact Or.inr hv
    refine ih ha ?_ hc ?_ q hq
    · intro x hx v hv
      exact hskip v ((mem_pinWires S x v).mp hv).1 (hb x hx v hv)
    · intro v hv e he u hu
      exact hskip u ((mem_pinWires S e u).mp hu).1 (hd v hv e he u hu)

theorem connectedInitFold_fst (S : Schematic) (l : List Nat)
    (acc : List Nat × List (Nat × Nat)) (q : Nat) :
    q ∈ (l.foldl (fun (acc : List Nat × List (Nat × Nat)) x =>
        (addPin acc.1 x, addWires acc.2 [] (pinWires S x))) acc).1 ↔
      q ∈ acc.1 ∨ q ∈ l := by
  induction l generalizing acc with
  | nil => simp
  | cons a t ih =>
    rw [List.foldl_cons, ih]
    show q ∈ addPin acc.1 a ∨ _ ↔ _
    rw [mem_addPin]
    simp only [List.mem_cons]
    tauto

theorem connectedInitFold_snd (S : Schematic) (l : List Nat)
    (acc : List Nat × List (Nat × Nat)) (v : Nat × Nat) :
    v ∈ (l.foldl (fun (acc : List Nat × List (Nat × Nat)) x =>
        (addPin acc.1 x, addWires acc.2 [] (pinWires S x))) acc).2 ↔
      v ∈ acc.2 ∨ ∃ x ∈ l, v ∈ pinWires S x := by
  induction l generalizing acc with
  | nil => simp
  | cons a t ih =>
    rw [List.foldl_cons, ih]
    show v ∈ addWires acc.2 [] (pinWires S a) ∨ _ ↔ _
    rw [mem_addWires]
    simp only [List.not_mem_nil, not_false_iff, and_true, List.mem_cons]
    constructor
    · rintro ((h | h) | ⟨x, hx, hv⟩)
      · exact Or.inl h
      · exact Or.inr ⟨a, Or.inl rfl, h⟩
      · exact Or.inr ⟨x, Or.inr hx, hv⟩
    · rintro (h | ⟨x, (rfl | hx), hv⟩)
      · exact Or.inl (Or.inl h)
      · exact Or.inl (Or.inr hv)
      · exact Or.inr ⟨x, hx, hv⟩

theorem mem_connectedInit_fst (S : Schematic) (p q : Nat) :
    q ∈ (connectedInit S p).1 ↔ q ∈ connectedOnBoard S p := by
  unfold connectedInit
  rw [connectedInitFold_fst]
  simp

theorem mem_connectedInit_snd (S : Schematic) (p : Nat) (v : Nat × Nat) :
    v ∈ (connectedInit S p).2 ↔ ∃ x ∈ connectedOnBoard S p, v ∈ pinWires S x := by
  unfold connectedInit
  rw [connectedInitFold_snd]
  simp

/-- Membership characterisation of `Pin.connected`: a pin is returned exactly
when it is on `p`'s own on-board group or on the on-board group of an
endpoint of a wire discovered by the traversal. -/
theorem mem_connected_iff (S : Schematic) (p q : Nat) :
    q ∈ Pin.connected S p ↔ ReachedPin S p q := by
  constructor
  · intro hq
    refine connectedLoop_sound S p _ _ _ ?_ ?_ q hq
    · intro q' hq'
      exact Or.inl ((mem_connectedInit_fst S p q').mp hq')
    · intro w hw
      rcases (mem_connectedInit_snd S p w).mp hw with ⟨x, hx, hwx⟩
      exact WireReach.init x w hx hwx
  · intro hq
    refine connectedLoop_closed S p _ _ _ ?_ ?_ ?_ ?_ q hq
    · intro x hx
      exact (mem_connectedInit_fst S p x).mpr hx
    · intro x hx w hw
      exact Or.inr ((mem_connectedInit_snd S p w).mpr ⟨x, hx, hw⟩)
    · intro w hw
      exact absurd hw (List.not_mem_nil w)
    · intro w hw
      exact absurd hw (List.not_mem_nil w)

/-- Well-formedness of a schematic: every completed wire connects two
existing pins.  The `Wire` constructor establishes this (a wire whose
endpoint does not resolve on the current board is not registered with any
pin and is excluded from connectivity). -/
def Schematic.WF (S : Schematic) : Prop :=
  ∀ w ∈ S.wires, w.1 ∈ S.pins ∧ w.2 ∈ S.pins

theorem connected_self (S : Schematic) (p : Nat) (hp : p ∈ S.pins) :
    p ∈ Pin.connected S p :=
  (mem_connected_iff S p p).mpr (Or.inl (self_mem_connectedOnBoard S p hp))

theorem wireReach_back (S : Schematic) (p : Nat) (hp : p ∈ S.pins) :
    ∀ w, WireReach S p w → ∀ r, WireReach S r w → ReachedPin S r p := by
  intro w hw
  induction hw with
  | init x v hx hv =>
    intro r hr
    have hxv : v.1 = x ∨ v.2 = x := ((mem_pinWires S x v).mp hv).2
    have hpx : p ∈ connectedOnBoard S x := connectedOnBoard_swap S p x hp hx
    rcases hxv with hxv | hxv
    · exact Or.inr ⟨v, hr, Or.inl (hxv ▸ hpx)⟩
    · exact Or.inr ⟨v, hr, Or.inr (hxv ▸ hpx)⟩
  | step v u e hv he hu ih =>
    intro r hr
    have heu : e = u.1 ∨ e = u.2 := by
      have := ((mem_pinWires S e u).mp hu).2
      tauto
    have hvmem : v ∈ pinWires S e :=
      (mem_pinWires S e v).mpr ⟨hv.wire_mem, by tauto⟩
    exact ih r (WireReach.step u v e hr heu hvmem)

/-- Core symmetry property of the traversal: if `q` is returned for `p` then
`p` is returned for `q`. -/
theorem connected_symm (S : Schematic) (hWF : S.WF) (p q : Nat) (hp : p ∈ S.pins)
    (hq : q ∈ Pin.connected S p) : p ∈ Pin.connected S q := by
  rw [mem_connected_iff] at hq ⊢
  rcases hq with hq | ⟨w, hwr, hgrp⟩
  · exact Or.inl (connectedOnBoard_swap S p q hp hq)
  · have hwmem : w ∈ S.wires := hwr.wire_mem
    have hends : w.1 ∈ S.pins ∧ w.2 ∈ S.pins := hWF w hwmem
    have hqw : WireReach S q w := by
      rcases hgrp with hgrp | hgrp
      · exact WireReach.init w.1 w (connectedOnBoard_swap S w.1 q hends.1 hgrp)
          ((mem_pinWires S w.1 w).mpr ⟨hwmem, Or.inl rfl⟩)
      · exact WireReach.init w.2 w (connectedOnBoard_swap S w.2 q hends.2 hgrp)
          ((mem_pinWires S w.2 w).mpr ⟨hwmem, Or.inr rfl⟩)
    exact wireReach_back S p hp w hwr q hqw

/-- Every pin returned by `Pin.connected` is a pin of the schematic. -/
theorem connected_mem_pins (S : Schematic) (p q : Nat) (hq : q ∈ Pin.connected S p) :
    q ∈ S.pins := by
  rw [mem_connected_iff] at hq
  rcases hq with hq | ⟨w, _, hgrp | hgrp⟩ <;>
    first
      | exact ((mem_connectedOnBoard S _ _).mp hq).1
      | exact ((mem_connectedOnBoard S _ _).mp hgrp).1

/-- Modelled from the spec: one electrical link of the specification's
reachability notion — two pins on the same on-board group, or the two
endpoints of a completed wire. -/
def linked (S : Schematic) (a b : Nat) : Prop :=
  S.groupOf a = S.groupOf b ∨ (a, b) ∈ S.wires ∨ (b, a) ∈ S.wires

/-- Modelled from the spec: transitive reachability through on-board groups
and completed wires, the notion the specification's contract says
`connected(pin)` returns ("every Pin transitively reachable from `pin`
through on-board groups and Wires"). -/
inductive SpecReach (S : Schematic) : Nat → Nat → Prop where
  | refl (p : Nat) : SpecReach S p p
  | tail {p q r : Nat} (h : SpecReach S p q) (hqr : linked S q r) : SpecReach S p r

theorem specReach_of_connectedOnBoard (S : Schematic) (p q : Nat)
    (h : q ∈ connectedOnBoard S p) : SpecReach S p q :=
  SpecReach.tail (SpecReach.refl p)
    (Or.inl ((mem_connectedOnBoard S p q).mp h).2.symm)

theorem specReach_endpoints (S : Schematic) (p : Nat) (w : Nat × Nat)
    (h : WireReach S p w) : SpecReach S p w.1 ∧ SpecReach S p w.2 := by
  have hwire : ∀ v : Nat × Nat, v ∈ S.wires → linked S v.1 v.2 ∧ linked S v.2 v.1 := by
    intro v hv
    have hv' : (v.1, v.2) ∈ S.wires := by
      rw [Prod.mk.eta]
      exact hv
    exact ⟨Or.inr (Or.inl hv'), Or.inr (Or.inr hv')⟩
  induction h with
  | init x v hx hv =>
    have hx' : SpecReach S p x := specReach_of_connectedOnBoard S p x hx
    have hv' := (mem_pinWires S x v).mp hv
    rcases hv'.2 with h1 | h2
    · subst h1
      exact ⟨hx', SpecReach.tail hx' (hwire v hv'.1).1⟩
    · subst h2
      exact ⟨SpecReach.tail hx' (hwire v hv'.1).2, hx'⟩
  | step v u e hv he hu ih =>
    have he' : SpecReach S p e := by
      rcases he with rfl | rfl
      · exact ih.1
      · exact ih.2
    have hu' := (mem_pinWires S e u).mp hu
    rcases hu'.2 with h1 | h2
    · subst h1
      exact ⟨he', SpecReach.tail he' (hwire u hu'.1).1⟩
    · subst h2
      exact ⟨SpecReach.tail he' (hwire u hu'.1).2, he'⟩

/-- Soundness half of the spec's contract: everything `Pin.connected`
returns is transitively reachable. -/
theorem connected_specReach (S : Schematic) (p q : Nat)
    (hq : q ∈ Pin.connected S p) : SpecReach S p q := by
  rw [mem_connected_iff] at hq
  rcases hq with hq | ⟨w, hwr, hgrp | hgrp⟩
  · exact specReach_of_connectedOnBoard S p q hq
  · exact SpecReach.tail (specReach_endpoints S p w hwr).1
      (Or.inl ((mem_connectedOnBoard S w.1 q).mp hgrp).2.symm)
  · exact SpecReach.tail (specReach_endpoints S p w hwr).2
      (Or.inl ((mem_connectedOnBoard S w.2 q).mp hgrp).2.symm)

theorem wireReach_congr (S1 S2 : Schematic) (hpins : S1.pins = S2.pins)
    (hgroup : S1.groupOf = S2.groupOf) (hw : ∀ v, v ∈ S1.wires ↔ v ∈ S2.wires)
    (p : Nat) (w : Nat × Nat) (h : WireReach S1 p w) : WireReach S2 p w := by
  have hob : ∀ x, connectedOnBoard S1 x = connectedOnBoard S2 x := by
    intro x
    unfold connectedOnBoard
    rw [hpins, hgroup]
  have hpw : ∀ x v, v ∈ pinWires S1 x → v ∈ pinWires S2 x := by
    intro x v hv
    rw [mem_pinWires] at hv ⊢
    exact ⟨(hw v).mp hv.1, hv.2⟩
  induction h with
  | init x v hx hv => exact WireReach.init x v (hob p ▸ hx) (hpw x v hv)
  | step v u e hv he hu ih => exact WireReach.step v u e ih he (hpw e u hu)

theorem reachedPin_congr (S1 S2 : Schematic) (hpins : S1.pins = S2.pins)
    (hgroup : S1.groupOf = S2.groupOf) (hw : ∀ v, v ∈ S1.wires ↔ v ∈ S2.wires)
    (p q : Nat) (h : ReachedPin S1 p q) : ReachedPin S2 p q := by
  have hob : ∀ x, connectedOnBoard S1 x = connectedOnBoard S2 x := by
    intro x
    unfold connectedOnBoard
    rw [hpins, hgroup]
  rcases h with h | ⟨w, hwr, hgrp⟩
  · exact Or.inl (hob p ▸ h)
  · exact Or.inr ⟨w, wireReach_congr S1 S2 hpins hgroup hw p w hwr,
      by rcases hgrp with h | h
         · exact Or.inl (hob w.1 ▸ h)
         · exact Or.inr (hob w.2 ▸ h)⟩

/-- The set computed by `Pin.connected` only depends on the pins, groups and
the membership of the wire list — not on its order or multiplicity. -/
theorem connected_congr (S1 S2 : Schematic) (hpins : S1.pins = S2.pins)
    (hgroup : S1.groupOf = S2.groupOf) (hw : ∀ v, v ∈ S1.wires ↔ v ∈ S2.wires)
    (p q : Nat) : q ∈ Pin.connected S1 p ↔ q ∈ Pin.connected S2 p := by
  rw [mem_connected_iff, mem_connected_iff]
  constructor
  · exact reachedPin_congr S1 S2 hpins hgroup hw p q
  · exact reachedPin_congr S2 S1 hpins.symm hgroup.symm (fun v => (hw v).symm) p q

/-- The `isHigh` method of `Pin`: scan the connected set for the first pin in
output mode; its level decides, otherwise the pin floats and the result is
false. -/
def Pin.isHigh (S : Schematic) (p : Nat) : Bool :=
  match (Pin.connected S p).find? (fun q => S.output q) with
  | some q => S.high q
  | none => false

/-- The `isLow` method of `Pin`: scan the connected set for the first pin in
output mode; the negation of its level decides, otherwise false. -/
def Pin.isLow (S : Schematic) (p : Nat) : Bool :=
  match (Pin.connected S p).find? (fun q => S.output q) with
  | some q => !(S.high q)
  | none => false

/-- The `onPinChange` handler of `LED` (pins `anode` and `cathode`): the LED
is on when at least one pin is wired (its connected set has more than one
member), the anode condition holds (not wired, or observed high) and the
cathode condition holds (not wired, or observed low). -/
def LED.onPinChange (S : Schematic) (anode cathode : Nat) : Bool :=
  let anodeConnected := decide ((Pin.connected S anode).length > 1)
  let cathodeConnected := decide ((Pin.connected S cathode).length > 1)
  let isOn := anodeConnected || cathodeConnected
  let isOn := if anodeConnected && !(Pin.isHigh S anode) then false else isOn
  let isOn := if cathodeConnected && !(Pin.isLow S cathode) then false else isOn
  isOn

/-- The `transfer` method of `SPIController`: walk the connected set of the
bus's clock pin and call `transferSPI(b, sck, sdo, sdi)` on the device of
every pin there whose owning device implements the SPI-slave capability
(`'transferSPI' in pin.device`, modelled by the predicate `hasTransferSPI`
on device identifiers).  The result lists the calls made, in order, as
`(pin, byte, sck, sdo, sdi)` tuples. -/
def SPIController.transfer (S : Schematic) (hasTransferSPI : Nat → Bool)
    (sck sdo sdi b : Nat) : List (Nat × Nat × Nat × Nat × Nat) :=
  ((Pin.connected S sck).filter (fun p => hasTransferSPI (S.deviceOf p))).map
    (fun p => (p, b, sck, sdo, sdi))

/-- Shift-register state of a `WS2812` device: the number of bytes fed since
the last latch and the three color bytes (`color[0]` newest). -/
structure WS2812State where
  bytesInShiftRegister : Nat
  color : Nat × Nat × Nat

/-- The `writeWS2812Byte` method of `WS2812`.  Bytes arriving on a pin other
than `din` are ignored.  If the register already holds 3 bytes, the oldest
byte (`color[2]`) is first forwarded to every pin of the data-out pin's
connected set (the returned list of `(pin, byte)` calls); then the register
shifts the new byte in, saturating the byte counter at 3. -/
def WS2812.writeWS2812Byte (s : WS2812State) (isDin : Bool) (doutConnected : List Nat)
    (c : Nat) : WS2812State × List (Nat × Nat) :=
  if !isDin then (s, [])
  else
    let sends := if s.bytesInShiftRegister == 3 then
        doutConnected.map (fun p => (p, s.color.2.2))
      else []
    ({ bytesInShiftRegister := min 3 (s.bytesInShiftRegister + 1),
       color := (c, s.color.1, s.color.2.1) }, sends)

/-- The state part of the `latch` method of `WS2812`: commit the register and
reset the byte counter. -/
def WS2812.latch (s : WS2812State) : WS2812State :=
  { s with bytesInShiftRegister := 0 }

/-- Feed a sequence of bytes into the data-in pin (the state evolution does
not depend on what is chained on the data-out pin). -/
def WS2812.feed (s : WS2812State) (bs : List Nat) : WS2812State :=
  bs.foldl (fun t c => (WS2812.writeWS2812Byte t true [] c).1) s

/-- Decoder state of the `ST7789` SPI display controller.  `fb` records the
pixel writes performed on the canvas by the RAMWR decoder, as
`(x, y, fillStyle)` events in canvas coordinates; `fillStyle` is the RGB
fill colour currently configured on the drawing context. -/
structure ST7789State where
  command : Nat
  dataBuf : Option (List Nat)
  xs : Nat
  xe : Nat
  ys : Nat
  ye : Nat
  inverse : Bool
  x : Nat
  y : Nat
  dataByte : Option Nat
  currentColor : Int
  fillStyle : Nat × Nat × Nat
  fb : List (Int × Int × (Nat × Nat × Nat))

/-- Fixed display data of the simulated ST7789 instance (from the
constructor): 240×240 visible pixels with column offset 0 and row offset
80. -/
def ST7789.pixelWidth : Nat := 240

def ST7789.pixelHeight : Nat := 240

def ST7789.columnOffset : Nat := 0

def ST7789.rowOffset : Nat := 80

/-- The `reset` method of `ST7789`: restore the addressable window to the
full default bounds, inversion off, cursor to the origin and the byte
pairing/colour cache to their initial values.  The latched command, pending
data buffer, canvas contents and fill style are not touched. -/
def ST7789.reset (s : ST7789State) : ST7789State :=
  { s with xs := 0, xe := 0xef, ys := 0, ye := 0x13f, inverse := false,
           x := 0, y := 0, dataByte := none, currentColor := -1 }

/-- Constructor state of `ST7789`: no-op command, no data buffer, black fill
style, empty event log, and then `reset()`. -/
def ST7789.init : ST7789State :=
  ST7789.reset
    { command := 0x00, dataBuf := none, xs := 0, xe := 0, ys := 0, ye := 0,
      inverse := false, x := 0, y := 0, dataByte := none, currentColor := 0,
      fillStyle := (0, 0, 0), fb := [] }

/-- `Math.round (a / b)` for non-negative operands. -/
def roundDiv (a b : Nat) : Nat :=
  (2 * a + b) / (2 * b)

/-- RGB565 channel expansion used by the RAMWR decoder. -/
def rgb565 (word : Nat) : Nat × Nat × Nat :=
  (roundDiv ((word >>> 11) * 255) 31,
   roundDiv (((word >>> 5) &&& 63) * 255) 63,
   roundDiv ((word &&& 31) * 255) 31)

/-- Length of the pending data buffer (`dataBuf.length`; the source only
reads it under commands that have installed a buffer, so the `none` case is
unreachable there). -/
def bufLen : Option (List Nat) → Nat
  | none => 0
  | some l => l.length

/-- Indexing into the pending data buffer (always within bounds at the use
sites, which guard on the buffer length). -/
def bufGet (buf : Option (List Nat)) (i : Nat) : Nat :=
  (buf.getD []).getD i 0

/-- The `transferSPI` method of `ST7789`.  The four booleans are the
electrical checks the method performs against the schematic:
`sck.connected.has(this.sck)`, `sdi.connected.has(this.sdi)`,
`this.cs.isHigh()` and `this.dc.isHigh()`.  A byte with DC high is data for
the latched command; with DC low it is a new command and clears the pending
buffer.  The out-of-order window check of CASET/RASET, the MADCTL/COLMOD
value checks and unknown commands only log to the console, so they change no
further state here. -/
def ST7789.transferSPI (s : ST7789State) (b : Nat)
    (sckConnectedHasSck sdiConnectedHasSdi csIsHigh dcIsHigh : Bool) : ST7789State :=
  if !sckConnectedHasSck || !sdiConnectedHasSdi then s
  else if csIsHigh then s
  else if dcIsHigh then
    let s1 := { s with dataBuf := match s.dataBuf with
                  | some l => some (l ++ [b])
                  | none => none }
    if s1.command == 0x2a && bufLen s1.dataBuf == 4 then
      { s1 with xs := (bufGet s1.dataBuf 0 <<< 8) + bufGet s1.dataBuf 1,
                xe := (bufGet s1.dataBuf 2 <<< 8) + bufGet s1.dataBuf 3 }
    else if s1.command == 0x2b && bufLen s1.dataBuf == 4 then
      { s1 with ys := (bufGet s1.dataBuf 0 <<< 8) + bufGet s1.dataBuf 1,
                ye := (bufGet s1.dataBuf 2 <<< 8) + bufGet s1.dataBuf 3 }
    else if s1.command == 0x2c then
      match s1.dataByte with
      | none => { s1 with dataByte := some b }
      | some hi =>
        let word := (hi <<< 8) + b
        let s2 := { s1 with dataByte := none }
        let s3 := if s2.currentColor ≠ (word : Int) then
            { s2 with currentColor := (word : Int), fillStyle := rgb565 word }
          else s2
        let px : Int := (s3.x : Int) - (ST7789.columnOffset : Int)
        let py : Int := (s3.y : Int) - (ST7789.rowOffset : Int)
        let s4 := if 0 ≤ px ∧ 0 ≤ py ∧ px < (ST7789.pixelWidth : Int) ∧
            py < (ST7789.pixelHeight : Int) then
            { s3 with fb := s3.fb ++ [(px, py, s3.fillStyle)] }
          else s3
        let s5 := { s4 with x := s4.x + 1 }
        let s6 := if s5.x > s5.xe then { s5 with x := s5.xs, y := s5.y + 1 } else s5
        if s6.y > s6.ye then { s6 with y := s6.ys } else s6
    else s1
  else
    let s1 := { s with command := b, dataBuf := none }
    if b == 0x01 then ST7789.reset s1
    else if b == 0x20 then { s1 with inverse := false }
    else if b == 0x21 then { s1 with inverse := true }
    else if b == 0x2a || b == 0x2b then { s1 with dataBuf := some [] }
    else if b == 0x2c then { s1 with x := s1.xs, y := s1.ys, dataByte := none }
    else if b == 0x3a || b == 0x36 then { s1 with dataBuf := some [] }
    else s1

/-- Send a command byte over a correctly connected, selected bus (DC low). -/
def ST7789.sendCmd (s : ST7789State) (b : Nat) : ST7789State :=
  ST7789.transferSPI s b true true false false

/-- Send a data byte over a correctly connected, selected bus (DC high). -/
def ST7789.sendData (s : ST7789State) (b : Nat) : ST7789State :=
  ST7789.transferSPI s b true true false true

/-- Schematic document state owned by `Play`: the ordered object (device)
identifiers — the first entry is the central board — and the active wire
list `this.wires`. -/
structure PlayState where
  objects : List Nat
  wires : List (Nat × Nat)

/-- Outcome of a `Play.removeObject` call on a device: the new state, how
often `wireConfigurationVersion` was incremented, which pins received an
`update()` call (in order), and the exception thrown, if any. -/
structure RemoveResult where
  state : PlayState
  versionBumps : Nat
  notified : List Nat
  error : Option String

/-- Does the wire touch the device `d` (`wire.from.device == obj ||
wire.to.device == obj`)? -/
def touchesDevice (S : Schematic) (d : Nat) (w : Nat × Nat) : Bool :=
  S.deviceOf w.1 == d || S.deviceOf w.2 == d

/-- The `removeWire` method of `Play`: look the wire up in the active list;
throw `'wire to remove not found'` when absent, otherwise splice it out
(and `wire.remove()` detaches it from both endpoint pins' wire sets). -/
def Play.removeWire (st : PlayState) (w : Nat × Nat) : Except String PlayState :=
  if w ∈ st.wires then Except.ok { st with wires := st.wires.erase w }
  else Except.error "wire to remove not found"

/-- The device branch of `Play.removeObject`: removal of the first (root)
object is silently refused; otherwise every wire touching the device is
removed (collecting both endpoints of each removed wire in the
`pinsNeedingUpdate` set), the connectivity version is bumped once for the
whole batch, and each collected pin gets one `update()` call. -/
def Play.removeObject (S : Schematic) (st : PlayState) (d : Nat) : RemoveResult :=
  if st.objects.head? = some d then
    { state := st, versionBumps := 0, notified := [], error := none }
  else
    let removed := st.wires.filter (fun w => touchesDevice S d w)
    { state := { objects := st.objects.erase d,
                 wires := st.wires.filter (fun w => !touchesDevice S d w) },
      versionBumps := 1,
      notified := removed.foldl (fun acc w => addPin (addPin acc w.1) w.2) [],
      error := none }

/-- The `addWire` method of `Play` for a completed wire: push it onto the
wire list (the `Wire` constructor also registers it in both endpoint pins'
wire sets, from which `pinWires` is derived). -/
def Play.addWire (S : Schematic) (w : Nat × Nat) : Schematic :=
  { S with wires := S.wires ++ [w] }

/-- Effect of `Wire.remove` plus the `Play.removeWire` splice on the pin
graph: the first occurrence of the wire disappears from the wire list (and
with it from both endpoint pins' wire sets). -/
def Wire.remove (S : Schematic) (w : Nat × Nat) : Schematic :=
  { S with wires := S.wires.erase w }

theorem mem_erase_append (l : List (Nat × Nat)) (w x : Nat × Nat) :
    x ∈ (l ++ [w]).erase w ↔ x ∈ l := by
  by_cases hw : w ∈ l
  · rw [List.erase_append_left _ hw]
    constructor
    · intro h
      rcases List.mem_append.mp h with h | h
      · exact List.mem_of_mem_erase h
      · rw [List.mem_singleton.mp h]
        exact hw
    · intro hx
      by_cases hxw : x = w
      · subst hxw
        exact List.mem_append.mpr (Or.inr (List.mem_singleton.mpr rfl))
      · exact List.mem_append.mpr (Or.inl ((List.mem_erase_of_ne hxw).mpr hx))
  · rw [List.erase_append_right _ hw]
    simp

theorem mem_endpointsFold (l : List (Nat × Nat)) (acc : List Nat) (q : Nat) :
    q ∈ l.foldl (fun acc w => addPin (addPin acc w.1) w.2) acc ↔
      q ∈ acc ∨ ∃ w ∈ l, q = w.1 ∨ q = w.2 := by
  induction l generalizing acc with
  | nil => simp
  | cons a t ih =>
    rw [List.foldl_cons, ih, mem_addPin, mem_addPin]
    simp only [List.mem_cons]
    constructor
    · rintro (((h | h) | h) | ⟨v, hv, hq⟩)
      · exact Or.inl h
      · exact Or.inr ⟨a, Or.inl rfl, Or.inl h⟩
      · exact Or.inr ⟨a, Or.inl rfl, Or.inr h⟩
      · exact Or.inr ⟨v, Or.inr hv, hq⟩
    · rintro (h | ⟨v, (rfl | hv), hq⟩)
      · exact Or.inl (Or.inl (Or.inl h))
      · rcases hq with h | h
        · exact Or.inl (Or.inl (Or.inr h))
        · exact Or.inl (Or.inr h)
      · exact Or.inr ⟨v, hv, hq⟩

theorem nodup_endpointsFold (l : List (Nat × Nat)) (acc : List Nat) (h : acc.Nodup) :
    (l.foldl (fun acc w => addPin (addPin acc w.1) w.2) acc).Nodup := by
  induction l generalizing acc with
  | nil => exact h
  | cons a t ih =>
    rw [List.foldl_cons]
    exact ih _ (nodup_addPin _ _ (nodup_addPin _ _ h))

/-!
Concrete example schematics used to exercise the claims.  `exC1`: pin 0 is
wired to pin 1; pins 1 and 2 share an on-board group; pin 3 is wired to
pin 2.  `exC5`: an LED with anode pin 0 and cathode pin 1, the anode wired
to an input pin 2 that no output drives.  `exC9`: a bus with clock pin 0 and
data-out pin 1, the data-out pin wired to pin 2 of device 1, which
implements `transferSPI`.  `exC8S`/`exC8St`: a board (device 0) and a
device 5 owning pins 51 and 52, each wired to a board pin.
-/

def exC1 : Schematic :=
  { pins := [0, 1, 2, 3]
    groupOf := fun p => if p == 2 then 1 else p
    wires := [(0, 1), (3, 2)]
    deviceOf := fun p => p
    output := fun _ => false
    high := fun _ => false }

def exC5 : Schematic :=
  { pins := [0, 1, 2]
    groupOf := fun p => p
    wires := [(0, 2)]
    deviceOf := fun p => p
    output := fun _ => false
    high := fun _ => false }

def exC9 : Schematic :=
  { pins := [0, 1, 2]
    groupOf := fun p => p
    wires := [(1, 2)]
    deviceOf := fun p => if p ≤ 1 then 0 else 1
    output := fun _ => false
    high := fun _ => false }

def exC8S : Schematic :=
  { pins := [1, 2, 51, 52]
    groupOf := fun p => p
    wires := [(51, 1), (52, 2)]
    deviceOf := fun p => p / 10
    output := fun _ => false
    high := fun _ => false }

def exC8St : PlayState :=
  { objects := [0, 5], wires := [(51, 1), (52, 2)] }

theorem connected_exC1_0 : Pin.connected exC1 0 = [0, 1, 2] := by
  show connectedLoop exC1 [(0, 1)] [] [0] = [0, 1, 2]
  rw [connectedLoop_cons, if_pos (by decide)]
  show connectedLoop exC1 [] [(0, 1)] [0, 1, 2] = [0, 1, 2]
  rw [connectedLoop_nil]

theorem connected_exC1_1 : Pin.connected exC1 1 = [1, 2, 0, 3] := by
  show connectedLoop exC1 [(0, 1), (3, 2)] [] [1, 2] = [1, 2, 0, 3]
  rw [connectedLoop_cons, if_pos (by decide)]
  show connectedLoop exC1 [(3, 2)] [(0, 1)] [1, 2, 0] = [1, 2, 0, 3]
  rw [connectedLoop_cons, if_pos (by decide)]
  show connectedLoop exC1 [] [(0, 1), (3, 2)] [1, 2, 0, 3] = [1, 2, 0, 3]
  rw [connectedLoop_nil]

theorem connected_exC5_0 : Pin.connected exC5 0 = [0, 2] := by
  show connectedLoop exC5 [(0, 2)] [] [0] = [0, 2]
  rw [connectedLoop_cons, if_pos (by decide)]
  show connectedLoop exC5 [] [(0, 2)] [0, 2] = [0, 2]
  rw [connectedLoop_nil]

theorem connected_exC5_1 : Pin.connected exC5 1 = [1] := by
  show connectedLoop exC5 [] [] [1] = [1]
  rw [connectedLoop_nil]

theorem connected_exC9_0 : Pin.connected exC9 0 = [0] := by
  show connectedLoop exC9 [] [] [0] = [0]
  rw [connectedLoop_nil]

theorem connected_exC9_1 : Pin.connected exC9 1 = [1, 2] := by
  show connectedLoop exC9 [(1, 2)] [] [1] = [1, 2]
  rw [connectedLoop_cons, if_pos (by decide)]
  show connectedLoop exC9 [] [(1, 2)] [1, 2] = [1, 2]
  rw [connectedLoop_nil]

/-- C1 (counterexample): in `exC1`, pin 3 is transitively reachable from
pin 0 through on-board groups and wires (0 —wire— 1 —group— 2 —wire— 3),
yet `Pin.connected` does not return it: the wire `(3, 2)` hangs off pin 2,
which enters the set only as an on-board group member of the endpoint
pin 1, and the loop never expands the wires of such pins.  So `connected`
is not the transitive closure the claim describes. -/
theorem c1_counterexample : SpecReach exC1 0 3 ∧ 3 ∉ Pin.connected exC1 0 := by
  constructor
  · have h1 : SpecReach exC1 0 1 :=
      SpecReach.tail (SpecReach.refl 0) (Or.inr (Or.inl (by decide)))
    have h2 : SpecReach exC1 0 2 := SpecReach.tail h1 (Or.inl (by decide))
    exact SpecReach.tail h2 (Or.inr (Or.inr (by decide)))
  · rw [connected_exC1_0]
    decide

/-- C1 (amended): for a well-formed schematic, `Pin.connected` contains the
pin itself and its membership is symmetric, and every returned pin is
transitively reachable through on-board groups and wires — but it can be a
proper subset of that transitive closure (see the counterexample). -/
theorem c1_theorem (S : Schematic) (hWF : S.WF) (p q r : Nat) (hp : p ∈ S.pins)
    (hq : q ∈ S.pins) (hr : r ∈ Pin.connected S p) :
    p ∈ Pin.connected S p ∧ (q ∈ Pin.connected S p ↔ p ∈ Pin.connected S q) ∧
      SpecReach S p r :=
  ⟨connected_self S p hp,
   ⟨fun h => connected_symm S hWF p q hp h, fun h => connected_symm S hWF q p hq h⟩,
   connected_specReach S p r hr⟩

theorem c1_witness :
    0 ∈ Pin.connected exC1 0 ∧ (1 ∈ Pin.connected exC1 0 ↔ 0 ∈ Pin.connected exC1 1) ∧
      SpecReach exC1 0 1 :=
  c1_theorem exC1 (by unfold Schematic.WF; decide) 0 1 1 (by decide) (by decide)
    (by rw [connected_exC1_0]; decide)

/-- C2 state after software reset: send command `0x01`. -/
def ST7789.afterReset (s : ST7789State) : ST7789State :=
  ST7789.sendCmd s 0x01

/-- C2 state after reset and CASET with data `[0x00, 0x00, 0x00, 0xEF]`. -/
def ST7789.afterCaset (s : ST7789State) : ST7789State :=
  ST7789.sendData (ST7789.sendData (ST7789.sendData (ST7789.sendData
    (ST7789.sendCmd (ST7789.afterReset s) 0x2a) 0x00) 0x00) 0x00) 0xef

/-- C2 state after reset, CASET and RAMWR with the two data bytes of
`0xF800`. -/
def ST7789.afterRamwr (s : ST7789State) : ST7789State :=
  ST7789.sendData (ST7789.sendData (ST7789.sendCmd (ST7789.afterCaset s) 0x2c) 0xf8) 0x00

/-- C2 (counterexample): running the claim's exact byte sequence (software
reset, CASET `[0,0,0,0xEF]`, RAMWR `0xF8 0x00`) from the constructor state
paints no pixel at all: the then-current cursor is `(0, 0)`, the decoder
draws at the cursor minus the fixed row offset 80, i.e. canvas row −80,
which is discarded by the bounds check — the fill colour is set to
RGB (255, 0, 0) and the cursor advances, but `fb` stays empty. -/
theorem c2_counterexample :
    (ST7789.afterRamwr ST7789.init).fb = [] ∧
      (ST7789.afterRamwr ST7789.init).fillStyle = (255, 0, 0) ∧
      (ST7789.afterRamwr ST7789.init).x = 1 ∧ (ST7789.afterRamwr ST7789.init).y = 0 :=
  ⟨rfl, rfl, rfl, rfl⟩

/-- C2 (amended): from any decoder state, command `0x01` restores the
default window (xs=0, xe=0xef, ys=0, ye=0x13f) and turns inversion off;
CASET with data `[0,0,0,0xEF]` then sets xs=0 and xe=239; a subsequent
RAMWR with the data bytes of `0xF800` sets the fill colour to the decoded
RGB (255, 0, 0), advances the cursor by one column — but paints nothing,
because the cursor (0, 0) offset by the fixed row offset 80 lies outside
the 240×240 canvas (`fb` is unchanged). -/
theorem ST7789.afterReset_eq (s : ST7789State) :
    ST7789.afterReset s =
      { command := 0x01, dataBuf := none, xs := 0, xe := 0xef, ys := 0, ye := 0x13f,
        inverse := false, x := 0, y := 0, dataByte := none, currentColor := -1,
        fillStyle := s.fillStyle, fb := s.fb } := rfl

theorem ST7789.afterCaset_eq (s : ST7789State) :
    ST7789.afterCaset s =
      { command := 0x2a, dataBuf := some [0x00, 0x00, 0x00, 0xef], xs := 0, xe := 239,
        ys := 0, ye := 0x13f, inverse := false, x := 0, y := 0, dataByte := none,
        currentColor := -1, fillStyle := s.fillStyle, fb := s.fb } := by
  unfold ST7789.afterCaset
  rw [ST7789.afterReset_eq]
  simp [ST7789.sendData, ST7789.sendCmd, ST7789.transferSPI, bufLen, bufGet]

theorem ST7789.afterRamwr_eq (s : ST7789State) :
    ST7789.afterRamwr s =
      { command := 0x2c, dataBuf := none, xs := 0, xe := 239, ys := 0, ye := 0x13f,
        inverse := false, x := 1, y := 0, dataByte := none, currentColor := 0xf800,
        fillStyle := (255, 0, 0), fb := s.fb } := by
  unfold ST7789.afterRamwr
  rw [ST7789.afterCaset_eq]
  simp [ST7789.sendData, ST7789.sendCmd, ST7789.transferSPI, bufLen, bufGet, rgb565, roundDiv,
    ST7789.columnOffset, ST7789.rowOffset, ST7789.pixelWidth, ST7789.pixelHeight]
  decide

theorem c2_theorem (s : ST7789State) :
    ((ST7789.afterReset s).xs = 0 ∧ (ST7789.afterReset s).xe = 0xef ∧
      (ST7789.afterReset s).ys = 0 ∧ (ST7789.afterReset s).ye = 0x13f ∧
      (ST7789.afterReset s).inverse = false) ∧
    ((ST7789.afterCaset s).xs = 0 ∧ (ST7789.afterCaset s).xe = 239) ∧
    ((ST7789.afterRamwr s).fillStyle = (255, 0, 0) ∧
      (ST7789.afterRamwr s).currentColor = 0xf800 ∧
      (ST7789.afterRamwr s).x = 1 ∧ (ST7789.afterRamwr s).y = 0 ∧
      (ST7789.afterRamwr s).fb = s.fb) := by
  rw [ST7789.afterReset_eq, ST7789.afterCaset_eq, ST7789.afterRamwr_eq]
  exact ⟨⟨rfl, rfl, rfl, rfl, rfl⟩, ⟨rfl, rfl⟩, ⟨rfl, rfl, rfl, rfl, rfl⟩⟩

theorem feed_bytesInShiftRegister_le (s : WS2812State) (bs : List Nat)
    (hs : s.bytesInShiftRegister ≤ 3) : (WS2812.feed s bs).bytesInShiftRegister ≤ 3 := by
  induction bs generalizing s with
  | nil => exact hs
  | cons c t ih =>
    show (WS2812.feed (WS2812.writeWS2812Byte s true [] c).1 t).bytesInShiftRegister ≤ 3
    exact ih _ (by
      unfold WS2812.writeWS2812Byte
      simp only [Bool.not_true, Bool.false_eq_true, if_false]
      exact Nat.min_le_left 3 _)

/-- C3: a `WS2812` that latched (byte counter 0) and is then fed three bytes
forwards nothing; the fourth byte first forwards the original first byte
`b1` to every pin connected to the data-out pin; and the byte counter never
exceeds 3 under any fed byte sequence. -/
theorem c3_theorem (s0 : WS2812State) (b1 b2 b3 b4 : Nat) (dout : List Nat)
    (bs : List Nat) (s : WS2812State)
    (h0 : s0.bytesInShiftRegister = 0) (hs : s.bytesInShiftRegister ≤ 3) :
    ((WS2812.writeWS2812Byte s0 true dout b1).2 = [] ∧
      (WS2812.writeWS2812Byte (WS2812.writeWS2812Byte s0 true dout b1).1 true dout b2).2 =
        [] ∧
      (WS2812.writeWS2812Byte (WS2812.writeWS2812Byte
        (WS2812.writeWS2812Byte s0 true dout b1).1 true dout b2).1 true dout b3).2 = [] ∧
      (WS2812.writeWS2812Byte (WS2812.writeWS2812Byte (WS2812.writeWS2812Byte
        (WS2812.writeWS2812Byte s0 true dout b1).1 true dout b2).1 true dout b3).1 true
          dout b4).2 = dout.map (fun p => (p, b1))) ∧
    (WS2812.feed s bs).bytesInShiftRegister ≤ 3 := by
  constructor
  · obtain ⟨n, ⟨c0, c1, c2⟩⟩ := s0
    simp only [WS2812State.mk.injEq] at h0
    subst h0
    refine ⟨rfl, rfl, rfl, rfl⟩
  · exact feed_bytesInShiftRegister_le s bs hs

theorem c3_witness :
    ((WS2812.writeWS2812Byte ⟨0, (0, 0, 0)⟩ true [7] 10).2 = [] ∧
      (WS2812.writeWS2812Byte (WS2812.writeWS2812Byte ⟨0, (0, 0, 0)⟩ true [7] 10).1 true
        [7] 20).2 = [] ∧
      (WS2812.writeWS2812Byte (WS2812.writeWS2812Byte (WS2812.writeWS2812Byte
        ⟨0, (0, 0, 0)⟩ true [7] 10).1 true [7] 20).1 true [7] 30).2 = [] ∧
      (WS2812.writeWS2812Byte (WS2812.writeWS2812Byte (WS2812.writeWS2812Byte
        (WS2812.writeWS2812Byte ⟨0, (0, 0, 0)⟩ true [7] 10).1 true [7] 20).1 true
          [7] 30).1 true [7] 40).2 = [7].map (fun p => (p, 10))) ∧
    (WS2812.feed ⟨2, (9, 9, 9)⟩ [1, 2, 3, 4, 5]).bytesInShiftRegister ≤ 3 :=
  c3_theorem ⟨0, (0, 0, 0)⟩ 10 20 30 40 [7] [1, 2, 3, 4, 5] ⟨2, (9, 9, 9)⟩ rfl
    (by decide)

/-- C4: adding a completed wire and then removing that same wire restores
the connectivity relation: for every pin, the connected set after the
add-remove pair has exactly the members it had before.  (The add and the
remove each bump `wireConfigurationVersion`, so `connected` recomputes; the
model recomputes it on every call.) -/
theorem c4_theorem (S : Schematic) (w : Nat × Nat) (p q : Nat) :
    q ∈ Pin.connected (Wire.remove (Play.addWire S w) w) p ↔ q ∈ Pin.connected S p := by
  refine connected_congr (Wire.remove (Play.addWire S w) w) S rfl rfl ?_ p q
  intro v
  show v ∈ (S.wires ++ [w]).erase w ↔ v ∈ S.wires
  exact mem_erase_append S.wires w v

/-- C5 (counterexample): in `exC5` the LED's anode (pin 0) is wired to the
driverless input pin 2 — its connected set has two members and contains no
output-mode pin — and the cathode (pin 1) is unwired, so its condition is
satisfied; yet the LED reports off, because `!isHigh()` on a floating wired
anode forces it off.  This refutes the claim that a wired pin with no
observation counts as satisfied. -/
theorem c5_counterexample :
    LED.onPinChange exC5 0 1 = false ∧ (Pin.connected exC5 0).length > 1 ∧
      (Pin.connected exC5 0).all (fun p => !exC5.output p) = true ∧
      (Pin.connected exC5 1).length = 1 := by
  refine ⟨?_, ?_, ?_, ?_⟩
  · simp only [LED.onPinChange, Pin.isHigh, Pin.isLow, connected_exC5_0, connected_exC5_1]
    decide
  · rw [connected_exC5_0]
    decide
  · rw [connected_exC5_0]
    decide
  · rw [connected_exC5_1]
    decide

/-- C5 (amended): a wired pin (connected set with more than one member)
whose connected set contains no output-mode pin fails its conduction
condition — `isHigh()` returns false on a floating net — so the LED reports
off regardless of the cathode.  The floating-pin tolerance applies only to
unwired pins, whose condition is skipped. -/
theorem c5_theorem (S : Schematic) (anode cathode : Nat)
    (h1 : (Pin.connected S anode).length > 1)
    (h2 : ∀ p ∈ Pin.connected S anode, S.output p = false) :
    LED.onPinChange S anode cathode = false := by
  have hHigh : Pin.isHigh S anode = false := by
    unfold Pin.isHigh
    cases hf : (Pin.connected S anode).find? (fun q => S.output q) with
    | none => rfl
    | some q =>
      have hmem := List.mem_of_find?_eq_some hf
      have hq := List.find?_some hf
      rw [h2 q hmem] at hq
      cases hq
  simp [LED.onPinChange, hHigh, h1]

theorem c5_witness : LED.onPinChange exC5 0 1 = false :=
  c5_theorem exC5 0 1 (by rw [connected_exC5_0]; decide)
    (by rw [connected_exC5_0]; decide)

/-- C6: a byte transferred while the chip-select pin reads high, or while
the presented clock pin's connected set does not contain the controller's
SCK pin, or while the presented data pin's connected set does not contain
its SDI pin, leaves the entire decoder state unchanged. -/
theorem c6_theorem (s : ST7789State) (b : Nat)
    (sckConnectedHasSck sdiConnectedHasSdi csIsHigh dcIsHigh : Bool)
    (h : csIsHigh = true ∨ sckConnectedHasSck = false ∨ sdiConnectedHasSdi = false) :
    ST7789.transferSPI s b sckConnectedHasSck sdiConnectedHasSdi csIsHigh dcIsHigh = s := by
  unfold ST7789.transferSPI
  rcases h with rfl | rfl | rfl
  · cases sckConnectedHasSck <;> cases sdiConnectedHasSdi <;> simp
  · simp
  · cases sckConnectedHasSck <;> simp

theorem c6_witness : ST7789.transferSPI ST7789.init 0x2c true true true false = ST7789.init :=
  c6_theorem ST7789.init 0x2c true true true false (Or.inl rfl)

/-- C7 (counterexample): calling `removeObject` on the root/board device
(the first object of the document) does not throw — the method silently
returns, leaving the state unchanged, with no version bump and no
notification.  This refutes the claim that it fails loudly with an
exception. -/
theorem c7_counterexample :
    Play.removeObject exC8S exC8St 0 =
      { state := exC8St, versionBumps := 0, notified := [], error := none } ∧
      (Play.removeObject exC8S exC8St 0).error = none :=
  ⟨rfl, rfl⟩

/-- C7 (amended): `removeWire` on a wire not present in the active list does
fail loudly with the exception `'wire to remove not found'`; `removeObject`
on the root device, however, silently returns without an exception and
without modifying anything. -/
theorem c7_theorem (S : Schematic) (st : PlayState) (w : Nat × Nat) (d : Nat)
    (hw : w ∉ st.wires) (hd : st.objects.head? = some d) :
    Play.removeWire st w = Except.error "wire to remove not found" ∧
      Play.removeObject S st d =
        { state := st, versionBumps := 0, notified := [], error := none } := by
  constructor
  · unfold Play.removeWire
    rw [if_neg hw]
  · unfold Play.removeObject
    rw [if_pos hd]

theorem c7_witness :
    Play.removeWire exC8St (9, 9) = Except.error "wire to remove not found" ∧
      Play.removeObject exC8S exC8St 0 =
        { state := exC8St, versionBumps := 0, notified := [], error := none } :=
  c7_theorem exC8S exC8St (9, 9) 0 (by decide) (by decide)

/-- C8 (counterexample): removing device 5 of `exC8S`/`exC8St` removes two
wires but bumps the connectivity version only once — once per removal
batch, not once per removed wire as claimed. -/
theorem c8_counterexample :
    (Play.removeObject exC8S exC8St 5).versionBumps = 1 ∧
      (exC8St.wires.filter (fun w => touchesDevice exC8S 5 w)).length = 2 ∧
      (Play.removeObject exC8S exC8St 5).versionBumps ≠
        (exC8St.wires.filter (fun w => touchesDevice exC8S 5 w)).length :=
  ⟨rfl, rfl, by decide⟩

/-- C8 (amended): removing a non-root device removes exactly the wires
touching it, bumps the connectivity version once for the whole batch,
throws nothing, and notifies exactly the pins that lost a wire — each such
pin exactly once (the notified list has no duplicates). -/
theorem c8_theorem (S : Schematic) (st : PlayState) (d q : Nat)
    (hd : st.objects.head? ≠ some d) :
    (Play.removeObject S st d).state.wires =
      st.wires.filter (fun w => !touchesDevice S d w) ∧
    (Play.removeObject S st d).versionBumps = 1 ∧
    (Play.removeObject S st d).error = none ∧
    (q ∈ (Play.removeObject S st d).notified ↔
      ∃ w ∈ st.wires, touchesDevice S d w = true ∧ (q = w.1 ∨ q = w.2)) ∧
    (Play.removeObject S st d).notified.Nodup := by
  unfold Play.removeObject
  rw [if_neg hd]
  refine ⟨rfl, rfl, rfl, ?_, ?_⟩
  · rw [mem_endpointsFold]
    simp only [List.not_mem_nil, false_or, List.mem_filter]
    constructor
    · rintro ⟨w, ⟨hw, ht⟩, hq⟩
      exact ⟨w, hw, ht, hq⟩
    · rintro ⟨w, hw, ht, hq⟩
      exact ⟨w, ⟨hw, ht⟩, hq⟩
  · exact nodup_endpointsFold _ _ List.nodup_nil

theorem c8_witness :
    (Play.removeObject exC8S exC8St 5).state.wires =
      exC8St.wires.filter (fun w => !touchesDevice exC8S 5 w) ∧
    (Play.removeObject exC8S exC8St 5).versionBumps = 1 ∧
    (Play.removeObject exC8S exC8St 5).error = none ∧
    (51 ∈ (Play.removeObject exC8S exC8St 5).notified ↔
      ∃ w ∈ exC8St.wires, touchesDevice exC8S 5 w = true ∧ (51 = w.1 ∨ 51 = w.2)) ∧
    (Play.removeObject exC8S exC8St 5).notified.Nodup :=
  c8_theorem exC8S exC8St 5 51 (by decide)

/-- C9 (counterexample): in `exC9` the SPI-slave device 1 owns pin 2, which
is in the connected set of the bus's data-out pin 1 — but `transfer` on the
bus (sck = 0, sdo = 1, sdi = 0) makes no call at all, because it scans only
the clock pin's connected set.  This refutes the claim that devices
reachable from the data-out pin also receive the byte. -/
theorem c9_counterexample :
    SPIController.transfer exC9 (fun d => d == 1) 0 1 0 0x42 = [] ∧
      2 ∈ Pin.connected exC9 1 ∧ (exC9.deviceOf 2 == 1) = true := by
  refine ⟨?_, ?_, ?_⟩
  · unfold SPIController.transfer
    rw [connected_exC9_0]
    rfl
  · rw [connected_exC9_1]
    decide
  · decide

/-- C9 (amended): `SPIController.transfer` makes a call for a pin exactly
when that pin is in the connected set of the bus's clock pin and its owning
device implements the SPI-slave capability; the connected set of the
data-out pin is not consulted. -/
theorem c9_theorem (S : Schematic) (hasTransferSPI : Nat → Bool) (sck sdo sdi b p : Nat) :
    (p, b, sck, sdo, sdi) ∈ SPIController.transfer S hasTransferSPI sck sdo sdi b ↔
      p ∈ Pin.connected S sck ∧ hasTransferSPI (S.deviceOf p) = true := by
  unfold SPIController.transfer
  rw [List.mem_map]
  constructor
  · rintro ⟨a, ha, heq⟩
    obtain ⟨rfl, -⟩ : a = p ∧ True := by
      refine ⟨?_, trivial⟩
      exact congrArg Prod.fst heq
    exact ⟨(List.mem_filter.mp ha).1, (List.mem_filter.mp ha).2⟩
  · rintro ⟨hmem, hcap⟩
    exact ⟨p, List.mem_filter.mpr ⟨hmem, hcap⟩, rfl⟩

/-- C10: `isHigh` and `isLow` are never both true; both scan the same
connected list for the first output-mode pin, so whenever the connected set
has an output-mode pin, `isLow = !isHigh`; and with no output-mode pin both
are false (`isHigh` is false whenever the scan finds nothing). -/
theorem c10_theorem (S : Schematic) (p : Nat) :
    (Pin.isHigh S p && Pin.isLow S p) = false ∧
    Pin.isLow S p =
      (if (Pin.connected S p).any (fun q => S.output q) then !(Pin.isHigh S p)
       else false) ∧
    Pin.isHigh S p = ((Pin.connected S p).any (fun q => S.output q) && Pin.isHigh S p) := by
  unfold Pin.isHigh Pin.isLow
  cases hf : (Pin.connected S p).find? (fun q => S.output q) with
  | none =>
    have hany : (Pin.connected S p).any (fun q => S.output q) = false := by
      rw [Bool.eq_false_iff]
      intro hcontra
      rcases List.any_eq_true.mp hcontra with ⟨a, ha, hout⟩
      exact absurd hout (by simpa using List.find?_eq_none.mp hf a ha)
    rw [hany]
    exact ⟨rfl, rfl, rfl⟩
  | some q =>
    have hany : (Pin.connected S p).any (fun q => S.output q) = true :=
      List.any_eq_true.mpr ⟨q, List.mem_of_find?_eq_some hf, List.find?_some hf⟩
    rw [hany]
    refine ⟨?_, ?_, ?_⟩
    · exact Bool.and_not_self (S.high q)
    · rw [if_pos rfl]
    · rw [Bool.true_and]
